import Mathlib

/-!
Shallow embedding of the fuse-zipfs virtual filesystem (src/src/filesystem.rs).
Paths are lists of components, components and ZIP member names are lists of
characters, archives are parsed entry tables over a backing byte file, and the
host filesystem, inode tree and ZIP parser appear as oracles in a `World`
structure.  The FUSE handlers `getattr_`, `readdir_`, `readdir_zip` and
`read_` are embedded as state-passing functions over the LRU cache of open
archives.
-/

namespace ZipFs

/-- Path components and ZIP member names, as lists of characters (Rust `&str`). -/
abbrev Str := List Char

/-- libc errno ENOENT. -/
def ENOENT : Int := 2

/-- libc errno EIO (used by map_io_error when the io::Error carries no raw OS errno). -/
def EIO : Int := 5

/-- libc errno EBADF. -/
def EBADF : Int := 9

/-- libc errno ENOTDIR. -/
def ENOTDIR : Int := 20

/-- libc errno ENOSYS. -/
def ENOSYS : Int := 38

/-- The fuser file kinds produced by the code (map_ft only ever yields these two). -/
inductive FType where
  | regularFile
  | directory
deriving DecidableEq, Repr

/-- Host file kinds as observed through fs::FileType. -/
inductive HostKind where
  | dir
  | file
  | other
deriving DecidableEq, Repr

/-- map_ft (filesystem.rs 37-43): directories and regular files map to the fuser
kinds, anything else is ENOSYS. -/
def mapFt : HostKind → Except Int FType
  | .dir => .ok .directory
  | .file => .ok .regularFile
  | .other => .error ENOSYS

/-- The host metadata fields read by metadata_to_file_attrs (filesystem.rs 45-63). -/
structure Metadata where
  stIno : Nat
  stSize : Nat
  stBlocks : Nat
  stAtime : Int
  stMtime : Int
  stCtime : Int
  kind : HostKind
  mode : Nat
  stNlink : Nat
  stUid : Nat
  stGid : Nat
  stRdev : Nat
  stBlksize : Nat
deriving DecidableEq, Repr

/-- Rust `as u64` cast of a signed 64-bit value. -/
def toU64 (i : Int) : Nat := (i % (2 ^ 64 : Int)).toNat

/-- Rust `as u32` truncation. -/
def truncU32 (n : Nat) : Nat := n % 2 ^ 32

/-- Rust `as u16` truncation. -/
def truncU16 (n : Nat) : Nat := n % 2 ^ 16

/-- Rust `as usize` reinterpretation of an i64 (two's complement, never panics). -/
def intToUsize (i : Int) : Nat := (i % (2 ^ 64 : Int)).toNat

/-- fuser::FileAttr as populated by the code. -/
structure FileAttr where
  ino : Nat
  size : Nat
  blocks : Nat
  atime : Nat
  mtime : Nat
  ctime : Nat
  crtime : Nat
  kind : FType
  perm : Nat
  nlink : Nat
  uid : Nat
  gid : Nat
  rdev : Nat
  blksize : Nat
  flags : Nat
deriving DecidableEq, Repr

/-- metadata_to_file_attrs (filesystem.rs 45-63): copy the host metadata into a
FileAttr; times are seconds since the epoch cast as u64, crtime mirrors ctime,
kind comes from map_ft (propagating ENOSYS), perm is the mode truncated to u16. -/
def metadataToFileAttrs (m : Metadata) : Except Int FileAttr :=
  match mapFt m.kind with
  | .error e => .error e
  | .ok k => .ok {
      ino := m.stIno
      size := m.stSize
      blocks := m.stBlocks
      atime := toU64 m.stAtime
      mtime := toU64 m.stMtime
      ctime := toU64 m.stCtime
      crtime := toU64 m.stCtime
      kind := k
      perm := truncU16 m.mode
      nlink := truncU32 m.stNlink
      uid := m.stUid
      gid := m.stGid
      rdev := truncU32 m.stRdev
      blksize := truncU32 m.stBlksize
      flags := 0 }

/-- Whether a path component's string form ends with ".zip" (filesystem.rs 111);
case-sensitive and applied to the whole component string. -/
def endsZip (c : Str) : Bool := List.isSuffixOf (String.toList ".zip") c

/-- The breaking for-loop of get_zip_paths (filesystem.rs 108-116): index of the
first component satisfying endsZip in the already-reversed (leaf-first) component
list, None when no component matches. -/
def findZipIdx : List Str → Option Nat
  | [] => none
  | c :: rest =>
    if endsZip c then some 0
    else
      match findZipIdx rest with
      | some i => some (i + 1)
      | none => none

/-- get_zip_paths (filesystem.rs 105-126): reverse the components, find the first
".zip" component leaf-first, and slice: the pivot together with everything toward
the root (re-reversed) is the archive path, everything after the pivot toward the
leaf is the inner path. -/
def getZipPaths (cs : List Str) : Option (List Str × List Str) :=
  match findZipIdx cs.reverse with
  | some i => some ((cs.reverse.drop i).reverse, (cs.reverse.take i).reverse)
  | none => none

/-- ZIP compression method as matched by read_ (Stored versus everything else). -/
inductive CompressionMethod where
  | stored
  | deflated
  | other
deriving DecidableEq, Repr

/-- One parsed central-directory entry: the stored member name, the uncompressed
content its decoder yields, the central-directory size and data_start fields, and
the compression method.  Bytes are modelled as Nat. -/
structure ZipEntry where
  name : Str
  data : List Nat
  size : Nat
  dataStart : Nat
  compression : CompressionMethod
deriving DecidableEq, Repr

/-- A parsed archive (zip::ZipArchive over a SyncFile): the entry table plus the
backing file's bytes (into_inner exposes the latter).  Clones share both. -/
structure Archive where
  file : List Nat
  entries : List ZipEntry
deriving DecidableEq, Repr

/-- ZipArchive::by_name, modelled after the zip crate's names map: exact
whole-name lookup in the entry table. -/
def byName (a : Archive) (n : Str) : Option ZipEntry :=
  a.entries.find? (fun e => e.name == n)

/-- ZipFile::is_dir in the zip crate: the stored name ends with a slash. -/
def isDirName (n : Str) : Bool := List.isSuffixOf ['/'] n

/-- Rust str::split('/') as used at filesystem.rs 217: split at every slash,
keeping empty pieces, so "a/" splits into "a" and the empty string. -/
def splitSlash : Str → List Str
  | [] => [[]]
  | c :: rest =>
    if c = '/' then [] :: splitSlash rest
    else
      match splitSlash rest with
      | [] => [[c]]
      | p :: ps => (c :: p) :: ps

/-- ZipFile::enclosed_name, modelled after the zip crate: rejects names having a
".." path component, otherwise returns the name unchanged. -/
def enclosedName (n : Str) : Option Str :=
  if (splitSlash n).any (fun p => p = ['.', '.']) then none else some n

/-- PathBuf::to_string_lossy for a relative component list: the components joined
with slashes. -/
def joinSlash (cs : List Str) : Str := List.intercalate ['/'] cs

/-- The directory-prefix string of readdir_zip (filesystem.rs 209-210): the inner
path rendered as a string, a trailing slash appended, then one leading slash
stripped when present. -/
def fileString (inner : List Str) : Str :=
  match joinSlash inner ++ ['/'] with
  | '/' :: rest => rest
  | s => s

/-- Number of slashes in the directory-prefix string (filesystem.rs 211). -/
def countSlash (s : Str) : Nat := s.count '/'

/-- Vec::dedup (filesystem.rs 220): remove adjacent duplicates. -/
def dedupAdj : List Str → List Str
  | [] => []
  | [x] => [x]
  | x :: y :: rest => if x = y then dedupAdj (y :: rest) else x :: dedupAdj (y :: rest)

/-- Vec::sort_by_key on the name length (filesystem.rs 221) is a stable sort by
length; insertion sort with a non-strict comparison computes the same stable
sort, and is used as its extensional model. -/
def sortByLen (l : List Str) : List Str :=
  List.insertionSort (fun a b => a.length ≤ b.length) l

/-- The child-name computation of readdir_zip (filesystem.rs 213-221): filter the
archive's file-name table by the directory prefix, take from each name the path
component at the prefix's slash depth, deduplicate adjacent repeats, then stably
sort by length. -/
def childNames (table : List Str) (inner : List Str) : List Str :=
  sortByLen (dedupAdj ((table.filter
      (fun n => List.isPrefixOf (fileString inner) n)).filterMap
    (fun n => (splitSlash n).get? (countSlash (fileString inner)))))

/-- One iteration of the emission loop of readdir_zip (filesystem.rs 227-254):
a child name that by_name does not resolve is emitted as a directory under that
name; a resolved entry is emitted as a regular file under its enclosed name, or
skipped (continue) when the name is not enclosed. -/
def emitOne (a : Archive) (name : Str) : Option (Str × FType) :=
  match byName a name with
  | none => some (name, FType.directory)
  | some e =>
    match enclosedName e.name with
    | none => none
    | some fn => some (fn, FType.regularFile)

/-- The emission loop of readdir_zip over all computed children.  The FUSE reply
buffer is modelled as unbounded. -/
def emitChildren (a : Archive) (children : List Str) : List (Str × FType) :=
  children.filterMap (emitOne a)

/-- One host directory entry as observed through fs::read_dir. -/
structure DirEntry where
  name : Str
  kind : HostKind
deriving DecidableEq, Repr

/-- The open_files LRU cache (filesystem.rs 67), most-recently-used first, keyed
by the archive's inode. -/
abbrev Cache := List (Nat × Archive)

/-- LruCache::get (filesystem.rs 173): a hit promotes the entry to
most-recently-used and returns a clone of the archive. -/
def lruGet (c : Cache) (ino : Nat) : Option (Archive × Cache) :=
  match c.find? (fun p => p.1 == ino) with
  | none => none
  | some p => some (p.2, p :: c.eraseP (fun q => q.1 == ino))

/-- LruCache::put (filesystem.rs 188): insert at the most-recently-used end,
replacing any entry for the same key and evicting the least-recently-used entry
when the capacity would be exceeded. -/
def lruPut (cap : Nat) (c : Cache) (ino : Nat) (a : Archive) : Cache :=
  if (c.eraseP (fun q => q.1 == ino)).length < cap then
    (ino, a) :: c.eraseP (fun q => q.1 == ino)
  else
    (ino, a) :: (c.eraseP (fun q => q.1 == ino)).dropLast

/-- The external environment of ZipFs: the FileTree inode maps, the host
filesystem, and the ZIP parser, as read-only oracles.  Errors carry the errno
map_io_error would produce. -/
structure World where
  cap : Nat
  findPathByInode : Nat → Option (List Str)
  findInodeByPath : List Str → Option Nat
  statFile : List Str → Except Int Metadata
  openFile : List Str → Except Int (List Nat)
  parseZip : List Nat → Option Archive
  readFile : List Str → Except Int (List Nat)
  readDir : List Str → Except Int (List DirEntry)

/-- open_zip (filesystem.rs 165-190): resolve the archive's inode (ENOENT when
the tree lacks one), return a cached clone on a hit, otherwise open the host
file (open errors propagate via the question-mark operator), parse it (a parse
failure is logged and yields none, leaving the cache untouched), and cache a
successfully parsed archive. -/
def openZip (w : World) (c : Cache) (zipPath : List Str) :
    Except Int (Option Archive × Cache) :=
  match w.findInodeByPath zipPath with
  | none => .error ENOENT
  | some ino =>
    match lruGet c ino with
    | some (a, c2) => .ok (some a, c2)
    | none =>
      match w.openFile zipPath with
      | .error e => .error e
      | .ok bytes =>
        match w.parseZip bytes with
        | none => .ok (none, c)
        | some a => .ok (some a, lruPut w.cap c ino a)

/-- The is_dir decision of getattr_ (filesystem.rs 142-146): the member's is_dir
when by_name resolves the inner path, true when it does not (unwrap_or(true)). -/
def memberIsDir (a : Archive) (s : Str) : Bool :=
  match byName a s with
  | some e => isDirName e.name
  | none => true

/-- getattr_ (filesystem.rs 128-163): resolve the inode's path; for an archive
path, stat the archive file, build attrs from its metadata with the FUSE inode,
degrade to Directory/0o555 when the archive does not parse, and otherwise pick
Directory/0o555 or RegularFile/0o444 from the member lookup; for a passthrough
path, return the host attrs with the FUSE inode. -/
def getattrImpl (w : World) (c : Cache) (ino : Nat) : Except Int (FileAttr × Cache) :=
  match w.findPathByInode ino with
  | none => .error ENOENT
  | some path =>
    match getZipPaths path with
    | some (zipPath, filePath) =>
      match w.statFile zipPath with
      | .error e => .error e
      | .ok m =>
        match metadataToFileAttrs m with
        | .error e => .error e
        | .ok attrs0 =>
          match openZip w c zipPath with
          | .error e => .error e
          | .ok (none, c2) =>
            .ok ({ attrs0 with ino := ino, kind := FType.directory, perm := 0o555 }, c2)
          | .ok (some a, c2) =>
            if memberIsDir a (joinSlash filePath) then
              .ok ({ attrs0 with ino := ino, kind := FType.directory, perm := 0o555 }, c2)
            else
              .ok ({ attrs0 with ino := ino, kind := FType.regularFile, perm := 0o444 }, c2)
    | none =>
      match w.statFile path with
      | .error e => .error e
      | .ok m =>
        match metadataToFileAttrs m with
        | .error e => .error e
        | .ok attrs0 => .ok ({ attrs0 with ino := ino }, c)

/-- readdir_zip (filesystem.rs 192-257) as the list of (name, kind) pairs handed
to the FUSE reply: a nonzero offset yields an empty listing before the archive is
even opened, a missing or unparseable archive yields an empty listing, and
otherwise the children computed by childNames are emitted by emitChildren. -/
def readdirZip (w : World) (c : Cache) (offset : Int) (zipPath filePath : List Str) :
    Except Int (List (Str × FType) × Cache) :=
  if offset ≠ 0 then .ok ([], c)
  else
    match openZip w c zipPath with
    | .error e => .error e
    | .ok (none, c2) => .ok ([], c2)
    | .ok (some a, c2) =>
      .ok (emitChildren a (childNames (a.entries.map ZipEntry.name) filePath), c2)

/-- The emission loop of the passthrough readdir_ branch (filesystem.rs 279-293):
each host entry is emitted under its own name with its host file type mapped by
map_ft; a file-type error aborts the reply. -/
def emitHostEntries : List DirEntry → Except Int (List (Str × FType))
  | [] => .ok []
  | ent :: rest =>
    match mapFt ent.kind with
    | .error e => .error e
    | .ok ft =>
      match emitHostEntries rest with
      | .error e => .error e
      | .ok out => .ok ((ent.name, ft) :: out)

/-- readdir_ (filesystem.rs 259-296): archive paths delegate to readdir_zip; a
passthrough path is stat'ed (ENOTDIR unless a directory), its host entries are
enumerated, the first offset of them are skipped, and the rest are emitted with
their host file types.  There is no ".zip" relabelling: the TODO at
filesystem.rs 287 is unimplemented. -/
def readdirImpl (w : World) (c : Cache) (ino : Nat) (offset : Int) :
    Except Int (List (Str × FType) × Cache) :=
  match w.findPathByInode ino with
  | none => .error ENOENT
  | some path =>
    match getZipPaths path with
    | some (zipPath, filePath) => readdirZip w c offset zipPath filePath
    | none =>
      match w.statFile path with
      | .error e => .error e
      | .ok m =>
        if m.kind ≠ HostKind.dir then .error ENOTDIR
        else
          match w.readDir path with
          | .error e => .error e
          | .ok entries =>
            match emitHostEntries (entries.drop (intToUsize offset)) with
            | .error e => .error e
            | .ok out => .ok (out, c)

/-- Outcome of read_: returned bytes, an errno, or the panic of the offset
assertion at filesystem.rs 326. -/
inductive ReadResult where
  | ok (data : List Nat)
  | err (e : Int)
  | panic
deriving DecidableEq, Repr

/-- Seek followed by read_exact (filesystem.rs 337-340): exactly n bytes starting
at pos, or an UnexpectedEof error, which map_io_error turns into EIO because the
synthesized io::Error carries no raw OS errno.  A zero-length read succeeds even
past end of file. -/
def readExactAt (file : List Nat) (pos n : Nat) : Except Int (List Nat) :=
  if n ≤ file.length - pos then .ok ((file.drop pos).take n) else .error EIO

/-- read_ (filesystem.rs 309-373).  For an archive path whose archive parses, the
member is looked up (a zip-crate lookup error maps to EIO since the synthesized
io::Error has no raw OS errno), the offset is asserted non-negative, the read
length is min(size, member.size - offset) with saturating subtraction, and the
bytes come either from the backing file at data_start + offset (Stored) or from
the decoder's stream with offset bytes skipped (any other method).  Every other
path, including a parse failure, falls through to fs::read of the full virtual
path followed by skip(offset as usize) and take(size).  The file-handle argument
is never consulted. -/
def readImpl (w : World) (c : Cache) (ino : Nat) (_fh : Nat) (offset : Int)
    (size : Nat) : ReadResult × Cache :=
  match w.findPathByInode ino with
  | none => (.err ENOENT, c)
  | some path =>
    match getZipPaths path with
    | some (zipPath, filePath) =>
      match openZip w c zipPath with
      | .error e => (.err e, c)
      | .ok (none, c2) =>
        match w.readFile path with
        | .error e => (.err e, c2)
        | .ok bytes => (.ok ((bytes.drop (intToUsize offset)).take size), c2)
      | .ok (some a, c2) =>
        match byName a (joinSlash filePath) with
        | none => (.err EIO, c2)
        | some entry =>
          if offset < 0 then (.panic, c2)
          else
            match entry.compression with
            | CompressionMethod.stored =>
              match readExactAt a.file (entry.dataStart + offset.toNat)
                  (min size (entry.size - offset.toNat)) with
              | .error e => (.err e, c2)
              | .ok buf => (.ok buf, c2)
            | _ =>
              (.ok ((entry.data.drop offset.toNat).take
                (min size (entry.size - offset.toNat))), c2)
    | none =>
      match w.readFile path with
      | .error e => (.err e, c)
      | .ok bytes => (.ok ((bytes.drop (intToUsize offset)).take size), c)


/-- The readdir child-name listing as the spec words it (spec section 4.5.6):
from the archive's full file-name table, select names that start with the prefix
(inner path plus a slash, leading slash stripped), extract the component at the
depth given by the number of slashes in the prefix, deduplicate adjacent
duplicates, and sort stably by name length ascending.  This is the
specification side of the refinement claim about readdir_zip. -/
def specChildNames (table : List Str) (inner : List Str) : List Str :=
  sortByLen (dedupAdj (table.filterMap (fun n =>
    if List.isPrefixOf (fileString inner) n then
      (splitSlash n).get? (countSlash (fileString inner))
    else none)))

/-- A Stored member "f.txt" whose bytes sit at data_start 1 of the backing file. -/
def entryF : ZipEntry :=
  { name := String.toList "f.txt"
    data := [10, 20, 30]
    size := 3
    dataStart := 1
    compression := CompressionMethod.stored }

/-- An explicit directory-marker member "some/". -/
def entryD : ZipEntry :=
  { name := String.toList "some/"
    data := []
    size := 0
    dataStart := 0
    compression := CompressionMethod.stored }

/-- A Deflated member "some/g.txt". -/
def entryG : ZipEntry :=
  { name := String.toList "some/g.txt"
    data := [1, 2, 3, 4]
    size := 4
    dataStart := 9
    compression := CompressionMethod.deflated }

/-- A small well-formed archive holding the three members above. -/
def arOk : Archive :=
  { file := [0, 10, 20, 30]
    entries := [entryF, entryD, entryG] }

/-- Host metadata of a regular file. -/
def mFile : Metadata :=
  { stIno := 42, stSize := 1000, stBlocks := 8, stAtime := 11, stMtime := 12
    stCtime := 13, kind := HostKind.file, mode := 0o644, stNlink := 1
    stUid := 1000, stGid := 1000, stRdev := 0, stBlksize := 4096 }

/-- Host metadata of a directory. -/
def mDir : Metadata :=
  { stIno := 43, stSize := 4096, stBlocks := 8, stAtime := 11, stMtime := 12
    stCtime := 13, kind := HostKind.dir, mode := 0o755, stNlink := 2
    stUid := 1000, stGid := 1000, stRdev := 0, stBlksize := 4096 }

/-- The FileAttr metadata_to_file_attrs derives from mFile. -/
def baseFile : FileAttr :=
  { ino := 42, size := 1000, blocks := 8, atime := 11, mtime := 12, ctime := 13
    crtime := 13, kind := FType.regularFile, perm := 0o644, nlink := 1
    uid := 1000, gid := 1000, rdev := 0, blksize := 4096, flags := 0 }

/-- Path of the archive file a.zip. -/
def pZip : List Str := [String.toList "a.zip"]

/-- Path of the member a.zip/f.txt. -/
def pMem : List Str := [String.toList "a.zip", String.toList "f.txt"]

/-- Path of the directory a.zip/some inside the archive. -/
def pSome : List Str := [String.toList "a.zip", String.toList "some"]

/-- Path of a passthrough host directory. -/
def pDir : List Str := [String.toList "dir"]

/-- Path of a passthrough host file. -/
def pTxt : List Str := [String.toList "p.txt"]

/-- A healthy world: a.zip parses to arOk; dir is a host directory holding a
regular file named a.zip; p.txt is a host file containing two bytes. -/
def wOk : World :=
  { cap := 4
    findPathByInode := fun i =>
      if i = 1 then some pMem
      else if i = 2 then some pZip
      else if i = 3 then some pSome
      else if i = 4 then some pDir
      else if i = 5 then some pTxt
      else none
    findInodeByPath := fun p => if p = pZip then some 2 else none
    statFile := fun p => if p = pDir then .ok mDir else .ok mFile
    openFile := fun _ => .ok [7]
    parseZip := fun b => if b = [7] then some arOk else none
    readFile := fun p => if p = pTxt then .ok [104, 105] else .error ENOENT
    readDir := fun p =>
      if p = pDir then .ok [{ name := String.toList "a.zip", kind := HostKind.file }]
      else .error ENOENT }

/-- The cache state after wOk parses and caches a.zip. -/
def cOk : Cache := [(2, arOk)]

/-- Path of an archive that opens but does not parse. -/
def pBad : List Str := [String.toList "c.zip"]

/-- Path of an archive whose host open fails with EACCES. -/
def pErr : List Str := [String.toList "e.zip"]

/-- A failing world: c.zip opens but its bytes do not parse; e.zip fails to open
with errno 13. -/
def wBad : World :=
  { cap := 4
    findPathByInode := fun i => if i = 9 then some pBad else none
    findInodeByPath := fun p =>
      if p = pBad then some 9 else if p = pErr then some 8 else none
    statFile := fun _ => .ok mFile
    openFile := fun p => if p = pErr then .error 13 else .ok [1]
    parseZip := fun _ => none
    readFile := fun _ => .error ENOENT
    readDir := fun _ => .error ENOENT }

/-- A member literally named "..", which enclosed_name rejects. -/
def entryDots : ZipEntry :=
  { name := ['.', '.']
    data := [1]
    size := 1
    dataStart := 0
    compression := CompressionMethod.stored }

/-- An archive whose only member is named "..". -/
def arDots : Archive :=
  { file := [1]
    entries := [entryDots] }

/-- Path of the archive file d.zip holding the ".." member. -/
def pDots : List Str := [String.toList "d.zip"]

/-- A world where d.zip parses to the archive holding only the ".." member. -/
def wDots : World :=
  { cap := 4
    findPathByInode := fun i => if i = 11 then some pDots else none
    findInodeByPath := fun p => if p = pDots then some 11 else none
    statFile := fun _ => .ok mFile
    openFile := fun _ => .ok [2]
    parseZip := fun b => if b = [2] then some arDots else none
    readFile := fun _ => .error ENOENT
    readDir := fun _ => .error ENOENT }

lemma findZipIdx_eq_none {rs : List Str} :
    findZipIdx rs = none ↔ ∀ c ∈ rs, endsZip c = false := by
  induction rs with
  | nil => simp [findZipIdx]
  | cons c rest ih =>
    by_cases hc : endsZip c
    · simp [findZipIdx, hc]
    · rw [Bool.not_eq_true] at hc
      cases hrest : findZipIdx rest with
      | some i => simp [findZipIdx, hc, hrest] at ih ⊢
                  exact ih
      | none => simp [findZipIdx, hc, hrest] at ih ⊢
                exact ih

lemma findZipIdx_eq_some {rs : List Str} {i : Nat} :
    findZipIdx rs = some i ↔
      ∃ pre c post, rs = pre ++ c :: post ∧ pre.length = i ∧
        endsZip c = true ∧ ∀ d ∈ pre, endsZip d = false := by
  induction rs generalizing i with
  | nil =>
    simp only [findZipIdx]
    constructor
    · intro h; cases h
    · rintro ⟨pre, c, post, h, -, -, -⟩
      exact absurd h (by simp)
  | cons a rest ih =>
    by_cases ha : endsZip a
    · simp only [findZipIdx, ha, if_pos]
      constructor
      · rintro h
        injection h with h
        exact ⟨[], a, rest, by simp, by simp [h], ha, by simp⟩
      · rintro ⟨pre, c, post, heq, hlen, hc, hall⟩
        cases pre with
        | nil => simp only [List.length_nil] at hlen; rw [← hlen]
        | cons p ps =>
          have hap : a = p := by simpa using congrArg (List.head?) heq
          have hpf := hall p (by simp)
          rw [← hap] at hpf
          exact absurd ha (by simp [hpf])
    · rw [Bool.not_eq_true] at ha
      simp only [findZipIdx, ha, Bool.false_eq_true, if_neg, not_false_iff]
      cases hrest : findZipIdx rest with
      | some j =>
        constructor
        · intro h
          injection h with h
          obtain ⟨pre, c, post, heq, hlen, hc, hall⟩ := ih.mp hrest
          refine ⟨a :: pre, c, post, by simp [heq], by simp [hlen, ← h], hc, ?_⟩
          intro d hd
          rcases List.mem_cons.mp hd with h1 | h2
          · rw [h1]; exact ha
          · exact hall d h2
        · rintro ⟨pre, c, post, heq, hlen, hc, hall⟩
          cases pre with
          | nil =>
            simp at heq
            rw [heq.1] at ha
            exact absurd hc (by simp [ha])
          | cons p ps =>
            have htail : rest = ps ++ c :: post := by simpa using congrArg (List.tail) heq
            have : findZipIdx rest = some ps.length :=
              ih.mpr ⟨ps, c, post, htail, rfl, hc, fun d hd => hall d (by simp [hd])⟩
            rw [hrest] at this
            injection this with this
            simp [← hlen, this]
      | none =>
        constructor
        · intro h; cases h
        · rintro ⟨pre, c, post, heq, hlen, hc, hall⟩
          cases pre with
          | nil =>
            simp at heq
            rw [heq.1] at ha
            exact absurd hc (by simp [ha])
          | cons p ps =>
            have htail : rest = ps ++ c :: post := by simpa using congrArg (List.tail) heq
            have : findZipIdx rest = some ps.length :=
              ih.mpr ⟨ps, c, post, htail, rfl, hc, fun d hd => hall d (by simp [hd])⟩
            rw [hrest] at this
            cases this

/-- C6: classification takes as pivot the first ".zip"-suffixed component found by
the leaf-first scan, i.e. the last such component in root-to-leaf order: a split
result (archive, inner) is produced exactly when the archive part is nonempty,
ends with a ".zip" component, concatenates with the inner part to the whole path,
and no inner component ends in ".zip"; a path with no ".zip" component yields
none (Passthrough).  Matching is case-sensitive on whole components, so
"foo.zip.bak" and "a.zippy" are never pivots. -/
theorem get_zip_paths_classification :
    (∀ cs : List Str, getZipPaths cs = none ↔ ∀ c ∈ cs, endsZip c = false)
    ∧ (∀ cs zp fp : List Str,
        getZipPaths cs = some (zp, fp) ↔
          ∃ ps p, zp = ps ++ [p] ∧ endsZip p = true ∧ cs = zp ++ fp ∧
            ∀ c ∈ fp, endsZip c = false)
    ∧ getZipPaths [String.toList "foo.zip.bak"] = none
    ∧ getZipPaths [String.toList "a.zippy"] = none := by
  refine ⟨?_, ?_, by decide, by decide⟩
  · intro cs
    cases h : findZipIdx cs.reverse with
    | some i => simp only [getZipPaths, h]
                constructor
                · intro hc; exact absurd hc (by simp)
                · intro hall
                  obtain ⟨pre, c, post, heq, -, hc, -⟩ := findZipIdx_eq_some.mp h
                  have hcin : c ∈ cs.reverse := by rw [heq]; simp
                  have := hall c (List.mem_reverse.mp hcin)
                  exact absurd hc (by simp [this])
    | none => simp only [getZipPaths, h]
              rw [findZipIdx_eq_none] at h
              constructor
              · intro _ c hc
                exact h c (List.mem_reverse.mpr hc)
              · intro _; trivial
  · intro cs zp fp
    constructor
    · intro h
      simp only [getZipPaths] at h
      cases hidx : findZipIdx cs.reverse with
      | none => rw [hidx] at h; cases h
      | some i =>
        rw [hidx] at h
        simp only [Option.some.injEq, Prod.mk.injEq] at h
        obtain ⟨hzp, hfp⟩ := h
        obtain ⟨pre, c, post, heq, hlen, hc, hall⟩ := findZipIdx_eq_some.mp hidx
        have hdrop : cs.reverse.drop i = c :: post := by
          rw [heq, ← hlen, List.drop_left' rfl]
        have htake : cs.reverse.take i = pre := by
          rw [heq, ← hlen, List.take_left' rfl]
        refine ⟨post.reverse, c, ?_, hc, ?_, ?_⟩
        · rw [← hzp, hdrop]; simp
        · have hcsr : cs = (cs.reverse).reverse := by simp
          rw [hcsr, heq]
          simp [← hzp, ← hfp, hdrop, htake]
        · intro d hd
          rw [← hfp, htake] at hd
          exact hall d (List.mem_reverse.mp hd)
    · rintro ⟨ps, p, hzp, hp, hcs, hall⟩
      have hrev : cs.reverse = fp.reverse ++ p :: ps.reverse := by
        rw [hcs, hzp]; simp
      have hidx : findZipIdx cs.reverse = some fp.reverse.length := by
        rw [findZipIdx_eq_some]
        exact ⟨fp.reverse, p, ps.reverse, hrev, rfl, hp,
          fun d hd => hall d (List.mem_reverse.mp hd)⟩
      have hdrop : cs.reverse.drop fp.reverse.length = p :: ps.reverse := by
        rw [hrev, List.drop_left' rfl]
      have htake : cs.reverse.take fp.reverse.length = fp.reverse := by
        rw [hrev, List.take_left' rfl]
      simp only [getZipPaths, hidx, hdrop, htake]
      simp [hzp]

/-- C2: for a path inside a parseable archive, getattr reports RegularFile with
perm 0o444 exactly when the inner path resolves to a member that is a file, and
Directory with perm 0o555 when it resolves to a directory member or to no member
at all; every other attribute field is the one metadata_to_file_attrs derives
from the archive file's own host metadata (the inode field carries the FUSE
inode being queried, which is outside the spec's attribute record). -/
theorem getattr_in_archive_kinds
    (w : World) (c : Cache) (ino : Nat) (path zipPath filePath : List Str)
    (m : Metadata) (base : FileAttr) (a : Archive) (c2 : Cache)
    (hpath : w.findPathByInode ino = some path)
    (hzip : getZipPaths path = some (zipPath, filePath))
    (hstat : w.statFile zipPath = .ok m)
    (hbase : metadataToFileAttrs m = .ok base)
    (hopen : openZip w c zipPath = .ok (some a, c2)) :
    getattrImpl w c ino =
      .ok ({ base with
             ino := ino
             kind := if memberIsDir a (joinSlash filePath) then FType.directory
                     else FType.regularFile
             perm := if memberIsDir a (joinSlash filePath) then 0o555 else 0o444 }, c2)
    ∧ (memberIsDir a (joinSlash filePath) = false ↔
        ∃ e, byName a (joinSlash filePath) = some e ∧ isDirName e.name = false) := by
  constructor
  · simp only [getattrImpl, hpath, hzip, hstat, hbase, hopen]
    by_cases hd : memberIsDir a (joinSlash filePath)
    · simp [hd]
    · rw [Bool.not_eq_true] at hd
      simp [hd]
  · simp only [memberIsDir]
    cases hb : byName a (joinSlash filePath) with
    | none => simp
    | some e => simp

/-- C3: open_zip propagates OS open errors to the caller, while a parse failure
is not an error: it yields none (Absent) with the cache left untouched, and a
subsequent getattr on the archive root then reports Directory with perm 0o555
built from the archive file's host metadata, again leaving the cache unchanged. -/
theorem open_zip_failure_semantics
    (w : World) (c : Cache) (zipPath : List Str) (ino : Nat)
    (hino : w.findInodeByPath zipPath = some ino)
    (hmiss : lruGet c ino = none) :
    (∀ e, w.openFile zipPath = .error e → openZip w c zipPath = .error e)
    ∧ (∀ bytes, w.openFile zipPath = .ok bytes → w.parseZip bytes = none →
        openZip w c zipPath = .ok (none, c)
        ∧ ∀ ino2 m base, w.findPathByInode ino2 = some zipPath →
            getZipPaths zipPath = some (zipPath, ([] : List Str)) →
            w.statFile zipPath = .ok m →
            metadataToFileAttrs m = .ok base →
            getattrImpl w c ino2 =
              .ok ({ base with ino := ino2, kind := FType.directory, perm := 0o555 }, c)) := by
  constructor
  · intro e hopen
    simp only [openZip, hino, hmiss, hopen]
  · intro bytes hopen hparse
    have hzip : openZip w c zipPath = .ok (none, c) := by
      simp only [openZip, hino, hmiss, hopen, hparse]
    refine ⟨hzip, ?_⟩
    intro ino2 m base hpath2 hcls hstat hbase
    simp only [getattrImpl, hpath2, hcls, hstat, hbase, hzip]

lemma splitSlash_ne_nil (s : Str) : splitSlash s ≠ [] := by
  cases s with
  | nil => simp [splitSlash]
  | cons c rest =>
    by_cases hc : c = '/'
    · simp [splitSlash, hc]
    · simp only [splitSlash, hc, if_neg, not_false_iff]
      cases h : splitSlash rest <;> simp

lemma mem_splitSlash_no_slash {s p : Str} (h : p ∈ splitSlash s) : '/' ∉ p := by
  induction s generalizing p with
  | nil => simp [splitSlash] at h; simp [h]
  | cons c rest ih =>
    by_cases hc : c = '/'
    · rw [splitSlash, if_pos hc] at h
      rcases List.mem_cons.mp h with h1 | h2
      · simp [h1]
      · exact ih h2
    · rw [splitSlash, if_neg hc] at h
      cases hs : splitSlash rest with
      | nil => exact absurd hs (splitSlash_ne_nil rest)
      | cons q qs =>
        rw [hs] at h
        rcases List.mem_cons.mp h with h1 | h2
        · have hq : '/' ∉ q := ih (by rw [hs]; exact List.mem_cons_self q qs)
          rw [h1]
          intro hin
          rcases List.mem_cons.mp hin with h3 | h4
          · exact hc h3.symm
          · exact hq h4
        · exact ih (by rw [hs]; exact List.mem_cons_of_mem q h2)

lemma splitSlash_of_no_slash {s : Str} (h : '/' ∉ s) : splitSlash s = [s] := by
  induction s with
  | nil => rfl
  | cons c rest ih =>
    have hc : ¬ c = '/' := fun he => h (by rw [he]; exact List.mem_cons_self _ _)
    have hrest : '/' ∉ rest := fun hin => h (List.mem_cons_of_mem c hin)
    rw [splitSlash, if_neg hc, ih hrest]

lemma splitSlash_append_slash (s : Str) :
    splitSlash (s ++ ['/']) = splitSlash s ++ [[]] := by
  induction s with
  | nil => rfl
  | cons c rest ih =>
    show splitSlash (c :: (rest ++ ['/'])) = splitSlash (c :: rest) ++ [[]]
    by_cases hc : c = '/'
    · rw [splitSlash, if_pos hc, ih, splitSlash, if_pos hc]
      rfl
    · rw [splitSlash, if_neg hc, ih, splitSlash, if_neg hc]
      cases hs : splitSlash rest with
      | nil => exact absurd hs (splitSlash_ne_nil rest)
      | cons q qs => rfl

lemma length_splitSlash (s : Str) : (splitSlash s).length = countSlash s + 1 := by
  induction s with
  | nil => rfl
  | cons c rest ih =>
    rw [splitSlash]
    by_cases hc : c = '/'
    · rw [if_pos hc]
      show (splitSlash rest).length + 1 = countSlash (c :: rest) + 1
      rw [ih]
      congr 1
      unfold countSlash
      rw [List.count_cons]
      simp [hc]
    · rw [if_neg hc]
      cases hs : splitSlash rest with
      | nil => exact absurd hs (splitSlash_ne_nil rest)
      | cons q qs =>
        show qs.length + 1 = countSlash (c :: rest) + 1
        have hcnt : countSlash (c :: rest) = countSlash rest := by
          unfold countSlash
          rw [List.count_cons]
          simp [hc]
        rw [hcnt, ← ih, hs]
        rfl

lemma byName_name {a : Archive} {n : Str} {e : ZipEntry}
    (h : byName a n = some e) : e.name = n := by
  have := List.find?_some h
  simpa using this

lemma byName_mem {a : Archive} {n : Str} {e : ZipEntry}
    (h : byName a n = some e) : e.name ∈ a.entries.map ZipEntry.name := by
  exact List.mem_map_of_mem ZipEntry.name (List.mem_of_find?_eq_some h)

lemma isDirName_mem {n : Str} (h : isDirName n = true) : '/' ∈ n := by
  obtain ⟨t, ht⟩ := List.isSuffixOf_iff_suffix.mp h
  rw [← ht]
  simp

lemma mem_dedupAdj {l : List Str} {x : Str} (h : x ∈ dedupAdj l) : x ∈ l := by
  induction l with
  | nil => simpa [dedupAdj] using h
  | cons a l ih =>
    cases l with
    | nil => simpa [dedupAdj] using h
    | cons b t =>
      rw [dedupAdj] at h
      by_cases hab : a = b
      · rw [if_pos hab] at h
        exact List.mem_cons_of_mem a (ih h)
      · rw [if_neg hab] at h
        rcases List.mem_cons.mp h with h1 | h2
        · rw [h1]; exact List.mem_cons_self a _
        · exact List.mem_cons_of_mem a (ih h2)

lemma mem_dedupAdj_of_mem {l : List Str} {x : Str} (h : x ∈ l) : x ∈ dedupAdj l := by
  induction l with
  | nil => simpa using h
  | cons a l ih =>
    cases l with
    | nil => simpa [dedupAdj] using h
    | cons b t =>
      rw [dedupAdj]
      by_cases hab : a = b
      · rw [if_pos hab]
        rcases List.mem_cons.mp h with h1 | h2
        · exact ih (by rw [h1, hab]; exact List.mem_cons_self b t)
        · exact ih h2
      · rw [if_neg hab]
        rcases List.mem_cons.mp h with h1 | h2
        · rw [h1]; exact List.mem_cons_self a _
        · exact List.mem_cons_of_mem a (ih h2)

lemma mem_sortByLen {l : List Str} {x : Str} : x ∈ sortByLen l ↔ x ∈ l :=
  (List.perm_insertionSort _ l).mem_iff

lemma filterMap_filter_eq {α β : Type} (p : α → Bool) (f : α → Option β)
    (l : List α) :
    (l.filter p).filterMap f = l.filterMap (fun x => if p x then f x else none) := by
  induction l with
  | nil => rfl
  | cons x l ih =>
    by_cases hp : p x
    · simp [List.filter_cons, hp, List.filterMap_cons, ih]
    · rw [Bool.not_eq_true] at hp
      simp [List.filter_cons, hp, List.filterMap_cons, ih]

lemma childNames_eq_spec (table : List Str) (inner : List Str) :
    childNames table inner = specChildNames table inner := by
  unfold childNames specChildNames
  rw [filterMap_filter_eq]

lemma mem_childNames_no_slash {table inner : List Str} {c : Str}
    (h : c ∈ childNames table inner) : '/' ∉ c := by
  unfold childNames at h
  rw [mem_sortByLen] at h
  have h2 := mem_dedupAdj h
  obtain ⟨n, -, hget⟩ := List.mem_filterMap.mp h2
  exact mem_splitSlash_no_slash (List.get?_mem hget)

lemma emitOne_of_byName_none {a : Archive} {ch : Str}
    (hb : byName a ch = none) :
    emitOne a ch = some (ch, FType.directory) := by
  unfold emitOne
  rw [hb]

lemma emitOne_of_enclosed {a : Archive} {ch fn : Str} {e : ZipEntry}
    (hb : byName a ch = some e) (hen : enclosedName e.name = some fn) :
    emitOne a ch = some (fn, FType.regularFile) := by
  unfold emitOne
  rw [hb]
  show (match enclosedName e.name with
        | none => none
        | some fn => some (fn, FType.regularFile)) = some (fn, FType.regularFile)
  rw [hen]

lemma emitOne_of_not_enclosed {a : Archive} {ch : Str} {e : ZipEntry}
    (hb : byName a ch = some e) (hen : enclosedName e.name = none) :
    emitOne a ch = none := by
  unfold emitOne
  rw [hb]
  show (match enclosedName e.name with
        | none => none
        | some fn => some (fn, FType.regularFile)) = none
  rw [hen]

lemma enclosedName_of_no_slash {n : Str} (hns : '/' ∉ n) (hne : n ≠ ['.', '.']) :
    enclosedName n = some n := by
  rw [enclosedName, splitSlash_of_no_slash hns]
  simp [hne]

lemma emitChildren_kinds {a : Archive} {children : List Str}
    (hsf : ∀ c ∈ children, '/' ∉ c) :
    ∀ pr ∈ emitChildren a children,
      (pr.2 = FType.regularFile ∧
        ∃ e, byName a pr.1 = some e ∧ isDirName e.name = false)
      ∨ (pr.2 = FType.directory ∧ byName a pr.1 = none) := by
  induction children with
  | nil => intro pr h; simp [emitChildren] at h
  | cons ch rest ih =>
    intro pr hpr
    have hsf2 : ∀ c ∈ rest, '/' ∉ c := fun c hc => hsf c (List.mem_cons_of_mem ch hc)
    have hch : '/' ∉ ch := hsf ch (List.mem_cons_self ch rest)
    rw [emitChildren, List.filterMap_cons] at hpr
    cases hb : byName a ch with
    | none =>
      rw [emitOne_of_byName_none hb] at hpr
      rcases List.mem_cons.mp hpr with h1 | h2
      · right
        rw [h1]
        exact ⟨rfl, hb⟩
      · exact ih hsf2 pr h2
    | some e =>
      have hname : e.name = ch := byName_name hb
      by_cases hdd : ch = ['.', '.']
      · have hen : enclosedName e.name = none := by
          rw [hname, hdd, enclosedName]
          simp [splitSlash_of_no_slash (show ('/' : Char) ∉ ['.', '.'] by simp)]
        rw [emitOne_of_not_enclosed hb hen] at hpr
        exact ih hsf2 pr hpr
      · have hen : enclosedName e.name = some ch := by
          rw [hname]
          exact enclosedName_of_no_slash hch hdd
        rw [emitOne_of_enclosed hb hen] at hpr
        rcases List.mem_cons.mp hpr with h1 | h2
        · left
          rw [h1]
          refine ⟨rfl, e, hb, ?_⟩
          cases hdir : isDirName e.name with
          | false => rfl
          | true => exact absurd (isDirName_mem hdir) (by rw [hname]; exact hch)
        · exact ih hsf2 pr h2

lemma emitChildren_names {a : Archive} {children : List Str}
    (hsf : ∀ c ∈ children, '/' ∉ c)
    (hdd : (['.', '.'] : Str) ∉ a.entries.map ZipEntry.name) :
    (emitChildren a children).map Prod.fst = children := by
  induction children with
  | nil => rfl
  | cons ch rest ih =>
    have hsf2 : ∀ c ∈ rest, '/' ∉ c := fun c hc => hsf c (List.mem_cons_of_mem ch hc)
    have hch : '/' ∉ ch := hsf ch (List.mem_cons_self ch rest)
    have ihr : (emitChildren a rest).map Prod.fst = rest := ih hsf2
    rw [emitChildren, List.filterMap_cons]
    cases hb : byName a ch with
    | none =>
      rw [emitOne_of_byName_none hb, List.map_cons]
      rw [emitChildren] at ihr
      rw [ihr]
    | some e =>
      have hname : e.name = ch := byName_name hb
      have hne : ch ≠ ['.', '.'] := by
        intro he
        exact hdd (by rw [← he, ← hname]; exact byName_mem hb)
      have hen : enclosedName e.name = some ch := by
        rw [hname]
        exact enclosedName_of_no_slash hch hne
      rw [emitOne_of_enclosed hb hen, List.map_cons]
      rw [emitChildren] at ihr
      rw [ihr]

lemma emitChildren_mem_dir {a : Archive} {children : List Str} {c : Str}
    (hmem : c ∈ children) (hb : byName a c = none) :
    (c, FType.directory) ∈ emitChildren a children := by
  induction children with
  | nil => simp at hmem
  | cons ch rest ih =>
    rw [emitChildren, List.filterMap_cons]
    rcases List.mem_cons.mp hmem with h1 | h2
    · rw [← h1, emitOne_of_byName_none hb]
      exact List.mem_cons_self _ _
    · have htail := ih h2
      rw [emitChildren] at htail
      cases hone : emitOne a ch with
      | none => exact htail
      | some b => exact List.mem_cons_of_mem _ htail

lemma fileString_ends_slash (inner : List Str) :
    fileString inner = [] ∨ ∃ t, fileString inner = t ++ ['/'] := by
  unfold fileString
  split
  · rename_i rest heq
    cases hj : joinSlash inner with
    | nil =>
      rw [hj] at heq
      simp at heq
      left
      exact heq
    | cons c u =>
      rw [hj] at heq
      simp at heq
      right
      exact ⟨u, heq.2.symm⟩
  · right
    exact ⟨joinSlash inner, rfl⟩

lemma countSlash_append_slash (s : Str) :
    countSlash (s ++ ['/']) = countSlash s + 1 := by
  unfold countSlash
  rw [List.count_append]
  simp

lemma take_drop_of_extract {file data : List Nat} {ds : Nat}
    (hex : (file.drop ds).take data.length = data) {off n : Nat}
    (hn : n ≤ data.length - off) :
    (file.drop (ds + off)).take n = (data.drop off).take n := by
  conv_rhs => rw [← hex]
  rw [List.drop_take, List.take_take, inf_eq_left.mpr hn, List.drop_drop]

/-- C1: a read with handle 0 of an existing member of a parseable archive at
offset off greater or equal zero and size sz returns exactly the bytes
[off, off + min(sz, size(M) - off)) of the member's uncompressed content: the
Stored branch reads them from the backing file at data_start + off, any other
method decodes from the beginning and skips off bytes; in particular
off = size(M) yields zero bytes and no error.  The well-formedness hypotheses
say the size field is the decoded length and a Stored member's decoded bytes
sit at data_start in the backing file. -/
theorem read_member_exact
    (w : World) (c : Cache) (ino : Nat) (path zipPath filePath : List Str)
    (a : Archive) (c2 : Cache) (entry : ZipEntry) (offset : Int) (size : Nat)
    (hpath : w.findPathByInode ino = some path)
    (hzip : getZipPaths path = some (zipPath, filePath))
    (hopen : openZip w c zipPath = .ok (some a, c2))
    (hname : byName a (joinSlash filePath) = some entry)
    (hsz : entry.size = entry.data.length)
    (hlay : entry.compression = CompressionMethod.stored →
      entry.dataStart + entry.data.length ≤ a.file.length ∧
      (a.file.drop entry.dataStart).take entry.data.length = entry.data)
    (hoff : 0 ≤ offset) :
    readImpl w c ino 0 offset size =
      (ReadResult.ok ((entry.data.drop offset.toNat).take
        (min size (entry.size - offset.toNat))), c2) := by
  have hneg : ¬ offset < 0 := not_lt.mpr hoff
  have hn : min size (entry.size - offset.toNat) ≤ entry.data.length - offset.toNat := by
    rw [← hsz]
    exact Nat.min_le_right _ _
  simp only [readImpl, hpath, hzip, hopen, hname]
  rw [if_neg hneg]
  cases hcomp : entry.compression with
  | stored =>
    obtain ⟨hle, hex⟩ := hlay hcomp
    have hguard : min size (entry.size - offset.toNat) ≤
        a.file.length - (entry.dataStart + offset.toNat) := by
      omega
    rw [readExactAt, if_pos hguard]
    rw [take_drop_of_extract hex hn]
  | deflated => rfl
  | other => rfl

/-- C10: read never panics for a non-negative offset (the assertion at
filesystem.rs 326 is the only panic site and no other branch inspects the
offset in a way that can panic), and for a negative offset on a resolved
archive-member read the assertion does fire. -/
theorem read_offset_assertion :
    (∀ (w : World) (c : Cache) (ino fh : Nat) (off : Int) (sz : Nat),
      0 ≤ off → (readImpl w c ino fh off sz).1 ≠ ReadResult.panic)
    ∧ (∀ (w : World) (c : Cache) (ino fh : Nat) (off : Int) (sz : Nat)
        (path zipPath filePath : List Str) (a : Archive) (c2 : Cache)
        (entry : ZipEntry),
      w.findPathByInode ino = some path →
      getZipPaths path = some (zipPath, filePath) →
      openZip w c zipPath = .ok (some a, c2) →
      byName a (joinSlash filePath) = some entry →
      off < 0 →
      (readImpl w c ino fh off sz).1 = ReadResult.panic) := by
  constructor
  · intro w c ino fh off sz hoff
    have hneg : ¬ off < 0 := not_lt.mpr hoff
    unfold readImpl
    repeat' split
    all_goals simp_all
  · intro w c ino fh off sz path zipPath filePath a c2 entry hpath hzip hopen hname hoff
    simp only [readImpl, hpath, hzip, hopen, hname]
    rw [if_pos hoff]

/-- C8 counterexample: a read with the nonzero handle 7, never handed out by any
open and absent from any table, does not return EBADF; it succeeds and returns
the passthrough file's bytes, because read_ never consults the handle. -/
theorem read_unknown_handle_no_ebadf :
    (readImpl wOk [] 5 7 0 2).1 = ReadResult.ok [104, 105]
    ∧ (readImpl wOk [] 5 7 0 2).1 ≠ ReadResult.err EBADF := by
  constructor
  · rfl
  · intro h
    cases h

/-- C8 amended: read_ ignores its file-handle argument entirely: any handle
value, known or not, zero or not, produces exactly the result of the handle-0
path-based read; in particular an unknown nonzero handle never yields EBADF. -/
theorem read_ignores_handle (w : World) (c : Cache) (ino fh : Nat)
    (off : Int) (sz : Nat) :
    readImpl w c ino fh off sz = readImpl w c ino 0 off sz := rfl

/-- C5: the passthrough readdir_ branch does not relabel ".zip"-suffixed entries
as directories (the TODO at filesystem.rs 287 is unimplemented): a host regular
file named a.zip in a passthrough directory is emitted with its host file type
RegularFile, where the spec requires Directory with perm 0o555. -/
theorem readdir_passthrough_zip_not_relabeled :
    readdirImpl wOk [] 4 0 =
      .ok ([(String.toList "a.zip", FType.regularFile)], []) := by rfl

/-- C4 counterexample: the claim as stated is false for an archive that stores
a member literally named "..": readdir of that archive's root at offset 0
returns an empty listing, while the claimed child-name formula yields the
single child ".." — the emission loop drops the child because by_name resolves
it and enclosed_name rejects the name (filesystem.rs 236-239), so the reply is
not exactly the computed name list. -/
theorem readdir_zip_listing_counterexample :
    readdirImpl wDots [] 11 0 = .ok ([], [(11, arDots)])
    ∧ specChildNames (arDots.entries.map ZipEntry.name) [] = [['.', '.']] :=
  ⟨rfl, rfl⟩

/-- C4 as amended: for an archive none of whose members is literally named
"..", readdir of an archive-classified path returns an empty listing for any
nonzero offset, before even touching the archive or its cache, and at offset 0
returns exactly the child names the spec prescribes: names starting with the
prefix (inner path plus a slash, leading slash stripped), component at the
prefix's slash depth, adjacent duplicates removed, stable sort by length
ascending.  A ".."-named member is the one exclusion the counterexample
forces: its child is silently dropped via enclosed_name. -/
theorem readdir_zip_listing
    (w : World) (c : Cache) (ino : Nat) (path zipPath filePath : List Str)
    (a : Archive) (c2 : Cache)
    (hpath : w.findPathByInode ino = some path)
    (hzip : getZipPaths path = some (zipPath, filePath))
    (hopen : openZip w c zipPath = .ok (some a, c2))
    (hdd : (['.', '.'] : Str) ∉ a.entries.map ZipEntry.name) :
    (∀ off : Int, off ≠ 0 → readdirImpl w c ino off = .ok ([], c))
    ∧ ∃ out, readdirImpl w c ino 0 = .ok (out, c2)
        ∧ out.map Prod.fst = specChildNames (a.entries.map ZipEntry.name) filePath := by
  constructor
  · intro off hoff
    simp only [readdirImpl, hpath, hzip, readdirZip, if_pos hoff]
  · refine ⟨emitChildren a (childNames (a.entries.map ZipEntry.name) filePath), ?_, ?_⟩
    · simp only [readdirImpl, hpath, hzip, readdirZip, hopen]
      simp
    · rw [emitChildren_names (fun d hd => mem_childNames_no_slash hd) hdd,
        childNames_eq_spec]

/-- C7: every pair emitted by readdir of an archive directory carries kind
RegularFile exactly when the child name, looked up verbatim with by_name,
resolves to a member that is a file, and kind Directory exactly when the lookup
finds nothing; a lookup hit on a slash-free child can never be a directory
entry, so no third case exists. -/
theorem readdir_zip_child_kinds
    (w : World) (c : Cache) (zipPath filePath : List Str)
    (a : Archive) (c2 : Cache) (out : List (Str × FType)) (pr : Str × FType)
    (hopen : openZip w c zipPath = .ok (some a, c2))
    (hout : readdirZip w c 0 zipPath filePath = .ok (out, c2))
    (hmem : pr ∈ out) :
    (pr.2 = FType.regularFile ∧
      ∃ e, byName a pr.1 = some e ∧ isDirName e.name = false)
    ∨ (pr.2 = FType.directory ∧ byName a pr.1 = none) := by
  have hred : readdirZip w c 0 zipPath filePath =
      .ok (emitChildren a (childNames (a.entries.map ZipEntry.name) filePath), c2) := by
    rw [readdirZip, if_neg (by simp : ¬ ((0 : Int) ≠ 0)), hopen]
  rw [hred] at hout
  injection hout with h
  injection h with h1 h2
  rw [← h1] at hmem
  exact emitChildren_kinds (fun d hd => mem_childNames_no_slash hd) pr hmem

/-- C9: when the archive stores an explicit directory-marker entry whose name
equals the listing prefix, splitting that marker at the child depth yields the
empty component, so the listing of that directory contains an empty-string
child, emitted as a Directory (the empty name resolves to no member). -/
theorem readdir_zip_marker_empty_child
    (w : World) (c : Cache) (zipPath filePath : List Str)
    (a : Archive) (c2 : Cache)
    (hopen : openZip w c zipPath = .ok (some a, c2))
    (hmark : fileString filePath ∈ a.entries.map ZipEntry.name)
    (hfs : fileString filePath ≠ [])
    (hnil : byName a [] = none) :
    ∃ out, readdirZip w c 0 zipPath filePath = .ok (out, c2)
      ∧ (([] : Str), FType.directory) ∈ out := by
  refine ⟨emitChildren a (childNames (a.entries.map ZipEntry.name) filePath), ?_, ?_⟩
  · rw [readdirZip, if_neg (by simp : ¬ ((0 : Int) ≠ 0)), hopen]
  · apply emitChildren_mem_dir _ hnil
    obtain ⟨t, ht⟩ := (fileString_ends_slash filePath).resolve_left hfs
    unfold childNames
    rw [mem_sortByLen]
    apply mem_dedupAdj_of_mem
    apply List.mem_filterMap.mpr
    refine ⟨fileString filePath, ?_, ?_⟩
    · exact List.mem_filter.mpr ⟨hmark,
        List.isPrefixOf_iff_prefix.mpr (List.prefix_refl _)⟩
    · rw [ht, splitSlash_append_slash, countSlash_append_slash]
      rw [List.get?_append_right (by rw [length_splitSlash])]
      rw [length_splitSlash]
      simp

/-- C2 witness: in the healthy world, getattr of the file member a.zip/f.txt
returns RegularFile with perm 0o444 and the archive file's host attrs. -/
theorem getattr_in_archive_kinds_witness :
    getattrImpl wOk [] 1 =
      .ok ({ baseFile with ino := 1, kind := FType.regularFile, perm := 0o444 }, cOk) := by
  have h := (getattr_in_archive_kinds wOk [] 1 pMem pZip [String.toList "f.txt"]
    mFile baseFile arOk cOk rfl (by decide) rfl rfl rfl).1
  rw [show memberIsDir arOk (joinSlash [String.toList "f.txt"]) = false from rfl] at h
  simpa using h

/-- C3 witness: in the failing world, opening the unparseable c.zip yields
Absent with the cache untouched, and getattr on its root reports the archive
file's host attrs overridden to Directory with perm 0o555. -/
theorem open_zip_failure_semantics_witness :
    openZip wBad [] pBad = .ok (none, [])
    ∧ getattrImpl wBad [] 9 =
        .ok ({ baseFile with ino := 9, kind := FType.directory, perm := 0o555 }, []) := by
  have h := open_zip_failure_semantics wBad [] pBad 9 rfl rfl
  have h2 := h.2 [1] rfl rfl
  exact ⟨h2.1, h2.2 9 mFile baseFile rfl (by decide) rfl rfl⟩

/-- C1 witness: reading the Stored member f.txt at offset equal to its size
returns zero bytes and no error. -/
theorem read_member_exact_witness :
    readImpl wOk [] 1 0 3 10 = (ReadResult.ok [], cOk) :=
  read_member_exact wOk [] 1 pMem pZip [String.toList "f.txt"] arOk cOk entryF 3 10
    rfl (by decide) rfl rfl rfl (fun _ => ⟨by decide, rfl⟩) (by decide)

/-- C10 witness: a non-negative offset does not panic; offset -1 on the
archive-member read panics via the assertion. -/
theorem read_offset_assertion_witness :
    (readImpl wOk [] 1 0 0 2).1 ≠ ReadResult.panic
    ∧ (readImpl wOk [] 1 0 (-1) 2).1 = ReadResult.panic := by
  constructor
  · exact read_offset_assertion.1 wOk [] 1 0 0 2 (by decide)
  · exact read_offset_assertion.2 wOk [] 1 0 (-1) 2 pMem pZip
      [String.toList "f.txt"] arOk cOk entryF rfl (by decide) rfl rfl (by decide)

/-- C4 witness: listing a.zip/some with a nonzero offset is empty; at offset 0
the emitted names are the empty marker child and g.txt, matching the spec's
listing formula (both children resolve to nothing by bare-name lookup and are
emitted as directories). -/
theorem readdir_zip_listing_witness :
    readdirImpl wOk [] 3 5 = .ok ([], [])
    ∧ readdirImpl wOk [] 3 0 =
        .ok ([(([] : Str), FType.directory),
          (String.toList "g.txt", FType.directory)], cOk) := by
  have h := readdir_zip_listing wOk [] 3 pSome pZip [String.toList "some"] arOk cOk
    rfl (by decide) rfl (by decide)
  exact ⟨h.1 5 (by decide), rfl⟩

/-- C7 witness: the child "some" of the archive root is emitted as a Directory
because its bare-name lookup finds nothing (the archive stores "some/"). -/
theorem readdir_zip_child_kinds_witness :
    byName arOk (String.toList "some") = none := by
  have h := readdir_zip_child_kinds wOk [] pZip [] arOk cOk
    [(String.toList "some", FType.directory),
      (String.toList "f.txt", FType.regularFile)]
    (String.toList "some", FType.directory) rfl rfl (by decide)
  exact (h.resolve_left (by simp)).2

/-- C9 witness: listing a.zip/some, whose marker "some/" is stored explicitly,
emits the empty-string child as a Directory. -/
theorem readdir_zip_marker_empty_child_witness :
    (([] : Str), FType.directory) ∈
      emitChildren arOk (childNames (arOk.entries.map ZipEntry.name)
        [String.toList "some"]) := by
  obtain ⟨out, hq, hmem⟩ := readdir_zip_marker_empty_child wOk [] pZip
    [String.toList "some"] arOk cOk rfl (by decide) (by decide) rfl
  have hconc : readdirZip wOk [] 0 pZip [String.toList "some"] =
      .ok (emitChildren arOk (childNames (arOk.entries.map ZipEntry.name)
        [String.toList "some"]), cOk) := rfl
  rw [hconc] at hq
  injection hq with h
  injection h with h1 h2
  rw [h1]
  exact hmem

end ZipFs
